import Mathlib

/-!
Verification of the `vai` job runner (src/jobs.go and the platform helper
`killProcess`) against its natural-language specification.

The Go code is shallowly embedded: every Go function that a claim touches is
translated into an executable Lean definition, with the global mutable state
(`runningProcesses`, the `Manager` fields, the set of cancelled contexts)
passed and returned explicitly.  Machine-level effects (sending a signal,
closing a channel, writing a log line) are recorded as events in a trace so
that ordering claims can be stated about them.

Modelling conventions, spelled out once:

* Go's `[]Job` inside `Job` is encoded as the mutually inductive `JobList`
  (Lean 4.14 compiles nested `List Job` recursion by well-founded recursion,
  which does not reduce definitionally; the mutual encoding keeps every
  interpreter kernel-computable).  `JobList.toList` converts back.
* A `context.Context` is modelled by the time at which its `Done` channel
  fires: `Ctx := Option Nat`, `none` meaning "never cancelled".  Logical time
  advances by one tick whenever a leaf process runs; `ctxDone c t` is the
  result of the `select`/`ctx.Err()` check performed at time `t`.  This is
  monotone, exactly like a real context.
* `jobs.go` propagates a parent's name by mutating the child struct
  (`seriesJob.Name = j.Name`) just before the recursive call.  The embedding
  threads that name as an explicit parameter of `Job.run` instead (the
  mutation touches nothing but the `Name` field, so the two are equivalent);
  the spec itself describes this very rewrite in its design notes.
* `map[string]T` values are association lists; the Go `map` assignment
  `m[k] = v` becomes "cons the new pair and drop every old pair with key `k`".
* Exit statuses of spawned processes are delivered by an oracle
  `ExitOracle : String → List String → Nat` (0 = success), since they are
  chosen by the operating system, not by the code under verification.
-/

/-- Mirrors `Trigger` of src/jobs.go (file paths and regex patterns). -/
structure Trigger where
  paths : List String
  regex : List String
deriving DecidableEq

mutual
/-- Mirrors `Job` of src/jobs.go.  `env` is the association-list image of
`map[string]string`; `series`/`parallel`/`before`/`after` use the mutual
`JobList` encoding of `[]Job`. -/
inductive Job where
  | mk (name : String) (cmd : String) (params : List String)
       (series : JobList) (parallel : JobList)
       (before : JobList) (after : JobList)
       (env : List (String × String)) (trigger : Option Trigger) : Job

/-- Encoding of `[]Job` used inside `Job` (see the header note). -/
inductive JobList where
  | nil : JobList
  | cons (j : Job) (js : JobList) : JobList
end

def Job.name : Job → String
  | .mk n _ _ _ _ _ _ _ _ => n

def Job.cmd : Job → String
  | .mk _ c _ _ _ _ _ _ _ => c

def Job.params : Job → List String
  | .mk _ _ p _ _ _ _ _ _ => p

def Job.series : Job → JobList
  | .mk _ _ _ s _ _ _ _ _ => s

def Job.parallel : Job → JobList
  | .mk _ _ _ _ p _ _ _ _ => p

def Job.before : Job → JobList
  | .mk _ _ _ _ _ b _ _ _ => b

def Job.after : Job → JobList
  | .mk _ _ _ _ _ _ a _ _ => a

def Job.env : Job → List (String × String)
  | .mk _ _ _ _ _ _ _ e _ => e

def JobList.isNil : JobList → Bool
  | .nil => true
  | .cons _ _ => false

def JobList.toList : JobList → List Job
  | .nil => []
  | .cons j js => j :: js.toList

/-- A context, identified with the time from which its `Done` channel is
closed (`none` = never cancelled). -/
abbrev Ctx := Option Nat

/-- The `select { case <-ctx.Done(): ... }` / `ctx.Err() != nil` check,
performed at logical time `t`. -/
def ctxDone (c : Ctx) (t : Nat) : Bool :=
  match c with
  | none => false
  | some ct => decide (ct ≤ t)

/-- One leaf execution performed by `Job.execute`: the name it runs (and, when
non-empty, registers) under, the command line, and the exit status the OS
reported. -/
structure ExecEv where
  name : String
  cmd : String
  params : List String
  exit : Nat
deriving DecidableEq

/-- Exit statuses are chosen by the operating system: the interpreter is
parameterised by this oracle. -/
abbrev ExitOracle := String → List String → Nat

/-- The part of an `ExecEv` the code itself determines (everything but the
OS-chosen exit status). -/
def ExecEv.shape (e : ExecEv) : String × String × List String :=
  (e.name, e.cmd, e.params)

mutual
/-- Mirrors `Job.run` of src/jobs.go (lines 104-144).  `name` is the value of
`j.Name` at the call (the caller's mutation `child.Name = j.Name` is threaded
as this parameter).  Returns the logical time after the call together with the
leaf executions it performed, in order.  The `context.WithValue` wrapper used
by the parallel branch only suppresses one log line and is dropped. -/
def Job.run (o : ExitOracle) (name : String) : Job → Ctx → Nat → Nat × List ExecEv
  | .mk _ cmd params series parallel _ _ _ _, c, t =>
    if ctxDone c t then (t, [])
    else if cmd ≠ "" then (t + 1, [⟨name, cmd, params, o cmd params⟩])
    else if !series.isNil then runSeriesL o name series c t
    else if !parallel.isNil then runParL o name parallel c t
    else (t, [])

/-- The `for i := range j.Series { seriesJob.Name = j.Name; seriesJob.run(ctx) }`
loop of `Job.run`: children run one after the other, each from the time the
previous one reached. -/
def runSeriesL (o : ExitOracle) (name : String) : JobList → Ctx → Nat → Nat × List ExecEv
  | .nil, _, t => (t, [])
  | .cons j js, c, t =>
    let p := Job.run o name j c t
    let q := runSeriesL o name js c p.1
    (q.1, p.2 ++ q.2)

/-- The parallel branch of `Job.run`: every child is started as a goroutine at
the same time `t`; `wg.Wait()` makes the join time the maximum branch time. -/
def runParL (o : ExitOracle) (name : String) : JobList → Ctx → Nat → Nat × List ExecEv
  | .nil, _, t => (t, [])
  | .cons j js, c, t =>
    let p := Job.run o name j c t
    let q := runParL o name js c t
    (max p.1 q.1, p.2 ++ q.2)
end

mutual
/-- Mirrors `Job.start` of src/jobs.go (lines 45-68): run the `Before` list
(each child preceded by a cancellation check; observing `Done` returns from
`start` at once), then `j.run`, then the `After` list under the same rule.
Note that `start` passes the children to `start` unchanged: it does NOT copy
`j.Name` onto them, unlike the series/parallel branches of `run`. -/
def Job.start (o : ExitOracle) : Job → Ctx → Nat → Nat × List ExecEv
  | j@(.mk nm _ _ _ _ before after _ _), c, t =>
    match startList o before c t with
    | (t1, evb, true) => (t1, evb)
    | (t1, evb, false) =>
      let r := Job.run o nm j c t1
      let a := startList o after c r.1
      (a.1, evb ++ r.2 ++ a.2.1)

/-- One of the `for _, child := range list { select ... child.start(ctx) }`
loops of `Job.start`.  The returned flag records whether the loop observed a
done context and made `start` return early. -/
def startList (o : ExitOracle) : JobList → Ctx → Nat → Nat × List ExecEv × Bool
  | .nil, _, t => (t, [], false)
  | .cons j js, c, t =>
    if ctxDone c t then (t, [], true)
    else
      let p := Job.start o j c t
      let q := startList o js c p.1
      (q.1, p.2 ++ q.2.1, q.2.2)
end

/-- Reference fold used only in statements: run every job of the list through
`Job.start`, with no cancellation check between them. -/
def startListAll (o : ExitOracle) : List Job → Ctx → Nat → Nat × List ExecEv
  | [], _, t => (t, [])
  | j :: js, c, t =>
    let p := Job.start o j c t
    let q := startListAll o js c p.1
    (q.1, p.2 ++ q.2)

mutual
/-- The leaves `Job.run` reaches from a node, in execution order, each tagged
with the name that `run` threads down to it (translated from the source
structure of `Job.run`: a leaf command, else the series children, else the
parallel children). -/
def runLeaves (name : String) : Job → List (String × String × List String)
  | .mk _ cmd params series parallel _ _ _ _ =>
    if cmd ≠ "" then [(name, cmd, params)]
    else if !series.isNil then runLeavesL name series
    else if !parallel.isNil then runLeavesL name parallel
    else []

/-- List version of `runLeaves`. -/
def runLeavesL (name : String) : JobList → List (String × String × List String)
  | .nil => []
  | .cons j js => runLeaves name j ++ runLeavesL name js
end

/-- One entry of the global `runningProcesses` list for a name: an `exec.Cmd`
whose `Process` field is `some pid` once started (`nil` in Go otherwise). -/
structure Handle where
  pid : Option Nat
deriving DecidableEq

/-- The global `runningProcesses map[string][]*exec.Cmd` of src/jobs.go. -/
abbrev ProcRegistry := List (String × List Handle)

/-- Observable steps of the kill-and-wait operation `Job.stop`.  `reaped`
would be the OS reporting a killed process as waited-for; it is part of the
event alphabet so the specification's ordering claim can be stated, and the
embedding of `Job.stop` shows where (whether) it occurs. -/
inductive StopEv where
  | removed (name : String)
  | killSent (pid : Nat)
  | reaped (pid : Nat)
  | closed
deriving DecidableEq

/-- Mirrors `Job.stop` of src/jobs.go (lines 71-101) together with
`killProcess` of the non-Windows platform file (src/unnamed/part_007, lines
195-197).  Under the mutex the name's entry is read and deleted; then, for
each handle with a started process, `killProcess` sends SIGKILL to the whole
process group (`syscall.Kill(-pid, SIGKILL)`), recorded as `killSent pid`;
the deferred `close(stopped)` then fires, recorded as `closed`.  Nothing in
the loop calls `Wait` on a handle, so no `reaped` event is ever produced. -/
def stopJob (name : String) (procs : ProcRegistry) : ProcRegistry × List StopEv :=
  match procs.lookup name with
  | none => (procs, [.closed])
  | some cmds =>
    (procs.filter (fun p => !(p.1 == name)),
     .removed name :: (cmds.filterMap (fun h => h.pid.map StopEv.killSent) ++ [.closed]))

/-- Mirrors `registerProcess` of src/jobs.go (lines 307-313): anonymous jobs
(empty name) are never registered. -/
def registerProcess (jobName : String) (h : Handle) (procs : ProcRegistry) : ProcRegistry :=
  if jobName ≠ "" then
    match procs.lookup jobName with
    | some cmds => (jobName, cmds ++ [h]) :: procs.filter (fun p => !(p.1 == jobName))
    | none => (jobName, [h]) :: procs
  else procs

/-- Mirrors the `Manager` of src/jobs.go (lines 336-340) plus the state of the
contexts it handed out.  A context is identified with the instance id created
alongside it, so `instance.cancel` becomes "add that id to `cancelled`".
`running` is the association-list image of `map[string]instance` (the stored
pair's second component is the instance id). -/
structure Manager where
  running : List (String × Nat)
  nextID : Nat
  cancelled : List Nat
deriving DecidableEq

/-- Mirrors `newManager` of src/jobs.go. -/
def newManager : Manager :=
  { running := [], nextID := 0, cancelled := [] }

/-- The Go `delete(m, name)` / map-overwrite helper: drop every pair whose key
is `name`. -/
def eraseName (l : List (String × Nat)) (name : String) : List (String × Nat) :=
  l.filter (fun p => !(p.1 == name))

/-- Mirrors `Manager.register` of src/jobs.go (lines 367-408).  Returns the
new state and the id of the fresh context (the deregister closure it hands
back is `Manager.deregister · jobName id`).  The `<-Job{Name: jobName}.stop()`
call between the cancel and the re-registration only touches the process
registry, which `stopJob` models separately. -/
def Manager.register (m : Manager) (jobName : String) : Manager × Nat :=
  let m1 :=
    match m.running.lookup jobName with
    | some oldId => { m with cancelled := oldId :: m.cancelled }
    | none => m
  let id := m1.nextID + 1
  ({ running := (jobName, id) :: eraseName m1.running jobName,
     nextID := id,
     cancelled := m1.cancelled }, id)

/-- Mirrors the deregister closure returned by `Manager.register` (src/jobs.go
lines 400-407), bound to the `(jobName, id)` it captured. -/
def Manager.deregister (m : Manager) (jobName : String) (id : Nat) : Manager :=
  match m.running.lookup jobName with
  | some cur =>
    if cur = id then { m with running := eraseName m.running jobName } else m
  | none => m

/-- One step of the instance-id counter of `Manager.register`, at machine
precision: `nextID` is a Go `uint64` (src/jobs.go line 339), so `m.nextID++`
followed by `id := m.nextID` (lines 391-392) yields `(nextID + 1) % 2^64` —
the increment wraps at 2^64.  (The `Manager` state above keeps the counter as
a plain `Nat`; that is sound for the two-call supersession and stale-deregister
scenarios, where at most two increments happen, but the id-uniqueness analysis
over arbitrary call sequences must use this wrapping semantics.) -/
def nextIdU64 (nextID : Nat) : Nat := (nextID + 1) % 2 ^ 64

/-- The instance ids assigned by a sequence of `Manager.register` calls,
driven by the wrapping uint64 counter `nextIdU64`.  The job names never
influence the counter: every call increments the single shared `nextID` under
the lock, whatever name it registers. -/
def registerIdsU64 (nextID : Nat) : List String → List Nat
  | [] => []
  | _ :: ns => nextIdU64 nextID :: registerIdsU64 (nextIdU64 nextID) ns

/-- Well-formedness of a `Manager` state: map keys are unique and no handed-out
id exceeds the counter.  `newManager` satisfies it and `register` preserves
it. -/
def Manager.WF (m : Manager) : Prop :=
  (m.running.map Prod.fst).Nodup ∧
  (∀ p ∈ m.running, p.2 ≤ m.nextID) ∧
  (∀ i ∈ m.cancelled, i ≤ m.nextID)

instance (m : Manager) : Decidable m.WF := by
  unfold Manager.WF; infer_instance

/-- The anonymous struct `raw` that `Job.UnmarshalYAML` decodes a mapping node
into (src/jobs.go lines 219-229). -/
structure RawJob where
  name : String
  cmd : String
  params : List String
  series : JobList
  parallel : JobList
  before : JobList
  after : JobList
  env : List (String × String)
  trigger : Option Trigger

/-- The `types` counter of `Job.UnmarshalYAML` (src/jobs.go lines 236-245):
how many of cmd/series/parallel are populated. -/
def RawJob.types (raw : RawJob) : Nat :=
  (if raw.cmd ≠ "" then 1 else 0) +
  (if !raw.series.isNil then 1 else 0) +
  (if !raw.parallel.isNil then 1 else 0)

/-- A YAML node as `Job.UnmarshalYAML` distinguishes them: either it decodes
as a plain command string, or as a mapping that decodes into `raw`. -/
inductive YamlNode where
  | scalar (s : String)
  | mapping (raw : RawJob)

/-- Model of Go's `strings.Fields` for the space-separated command strings the
scalar branch handles. -/
def stringFields (s : String) : List String :=
  (s.splitOn " ").filter (fun w => w ≠ "")

/-- Mirrors `Job.UnmarshalYAML` of src/jobs.go (lines 206-262): a scalar is
split into command and parameters; a mapping is validated to hold at most one
of cmd/series/parallel and rejected with a `yaml.TypeError` otherwise. -/
def Job.unmarshalYAML : YamlNode → Except String Job
  | .scalar s =>
    match stringFields s with
    | [] => .ok (Job.mk "" "" [] .nil .nil .nil .nil [] none)
    | c :: ps => .ok (Job.mk "" c ps .nil .nil .nil .nil [] none)
  | .mapping raw =>
    if raw.types > 1 then
      .error "action map can only contain one of 'cmd', 'series', or 'parallel' keys"
    else
      .ok (Job.mk raw.name raw.cmd raw.params raw.series raw.parallel
            raw.before raw.after raw.env raw.trigger)

/-- Whether an `Except` result is a success. -/
def exceptOk {ε α : Type} : Except ε α → Bool
  | .ok _ => true
  | .error _ => false

/-- What `Job.execute` reports to the logging boundary. -/
inductive LogEv where
  | runningCmd
  | errorReport (msg : String)
  | successReport
deriving DecidableEq

/-- The logging decisions of `Job.execute` (src/jobs.go lines 147-203), as a
function of the outcomes the OS hands the code: `setupErr`/`startErr` are the
pipe-creation and `cmd.Start()` errors, `waitErr` the `cmd.Wait()` exit error,
and `cSetup`/`cStart`/`cWait` whether `ctx.Err() != nil` at the corresponding
check.  The `par` flag is the parallel context value that suppresses the
"Running cmd" line. -/
def executeEvents (par : Bool) (setupErr startErr waitErr : Option String)
    (cSetup cStart cWait : Bool) : List LogEv :=
  let pre := if !par then [LogEv.runningCmd] else []
  match setupErr with
  | some e => pre ++ (if !cSetup then [.errorReport e] else [])
  | none =>
    match startErr with
    | some e => pre ++ (if !cStart then [.errorReport ("Failed to start cmd: " ++ e)] else [])
    | none =>
      match waitErr with
      | some e => pre ++ (if !cWait then [.errorReport ("Cmd with error: " ++ e)] else [])
      | none => pre ++ [.successReport]

/-- The environment slice built by `Job.setupCmd` (src/jobs.go lines 265-272):
`cmd.Env = os.Environ()` followed by one `key+"="+val` entry per job env
pair. -/
def setupCmdEnv (inherited jobEnv : List (String × String)) : List (String × String) :=
  inherited ++ jobEnv

/-- The value a spawned process observes for a variable: Go's `os/exec`
deduplicates `cmd.Env` keeping the LAST entry for each key, so the effective
binding is the last pair with that key. -/
def effectiveEnv (l : List (String × String)) (k : String) : Option String :=
  (l.filter (fun p => p.1 == k)).getLast?.map Prod.snd

/-- Concrete exit-status oracle (every process exits 0) used in closed
witness statements. -/
def zeroOracle : ExitOracle := fun _ _ => 0

lemma lookup_mem {l : List (String × Nat)} {n : String} {v : Nat}
    (h : l.lookup n = some v) : (n, v) ∈ l := by
  induction l with
  | nil => simp [List.lookup] at h
  | cons a l ih =>
    obtain ⟨k, b⟩ := a
    rw [List.lookup] at h
    by_cases hk : n == k
    · simp [hk] at h
      have hn : n = k := by simpa using hk
      rw [List.mem_cons]
      left
      rw [hn, h]
    · simp [hk] at h
      exact List.mem_cons_of_mem _ (ih h)

lemma register_cancelled_mem_of_lookup (m : Manager) (n : String) (oldId : Nat)
    (h : m.running.lookup n = some oldId) : oldId ∈ ((m.register n).1).cancelled := by
  unfold Manager.register
  rw [h]
  simp

lemma register_running (m : Manager) (n : String) :
    ((m.register n).1).running = (n, m.nextID + 1) :: eraseName m.running n := by
  unfold Manager.register
  cases h : m.running.lookup n <;> simp [h]

lemma register_id (m : Manager) (n : String) : (m.register n).2 = m.nextID + 1 := by
  unfold Manager.register
  cases h : m.running.lookup n <;> simp [h]

lemma register_nextID (m : Manager) (n : String) :
    ((m.register n).1).nextID = m.nextID + 1 := by
  unfold Manager.register
  cases h : m.running.lookup n <;> simp [h]

lemma register_cancelled_cases (m : Manager) (n : String) :
    ∀ i ∈ ((m.register n).1).cancelled,
      i ∈ m.cancelled ∨ m.running.lookup n = some i := by
  intro i hi
  unfold Manager.register at hi
  cases h : m.running.lookup n <;> simp [h] at hi
  · exact Or.inl hi
  · rcases hi with hi | hi
    · exact Or.inr (by rw [hi])
    · exact Or.inl hi

lemma eraseName_sublist (l : List (String × Nat)) (n : String) :
    (eraseName l n).Sublist l :=
  List.filter_sublist l

lemma register_WF (m : Manager) (n : String) (h : m.WF) : ((m.register n).1).WF := by
  obtain ⟨hnd, hrun, hcan⟩ := h
  refine ⟨?_, ?_, ?_⟩
  · rw [register_running]
    simp only [List.map_cons, List.nodup_cons]
    constructor
    · intro hmem
      rcases List.mem_map.mp hmem with ⟨p, hp, hfst⟩
      have := List.mem_filter.mp hp
      simp [hfst] at this
    · exact List.Nodup.sublist (List.Sublist.map _ (eraseName_sublist _ _)) hnd
  · intro p hp
    rw [register_running] at hp
    rw [register_nextID]
    rcases List.mem_cons.mp hp with hp | hp
    · simp [hp]
    · have := hrun p (List.Sublist.mem hp (eraseName_sublist _ _))
      omega
  · intro i hi
    rw [register_nextID]
    rcases register_cancelled_cases m n i hi with hi | hi
    · have := hcan i hi
      omega
    · have := hrun _ (lookup_mem hi)
      omega

/-- C2.  Registering the same name twice in succession leaves exactly one
RunInstance for that name in the running map; the first call's context is
cancelled by the time the second call returns, and the second call's context
is not.  (`Manager.register`, src/jobs.go lines 367-408; the sequential model
returns from the second call only after the first instance's cancel has been
recorded.) -/
theorem spec_C2 (m0 : Manager) (h : m0.WF) (jobName : String) :
    ((((m0.register jobName).1.register jobName).1.running.filter
        (fun p => p.1 == jobName)) =
      [(jobName, ((m0.register jobName).1.register jobName).2)]) ∧
    (m0.register jobName).2 ∈ ((m0.register jobName).1.register jobName).1.cancelled ∧
    ((m0.register jobName).1.register jobName).2 ∉
      ((m0.register jobName).1.register jobName).1.cancelled := by
  have hW1 : ((m0.register jobName).1).WF := register_WF m0 jobName h
  have hrun1 : ((m0.register jobName).1).running =
      (jobName, m0.nextID + 1) :: eraseName m0.running jobName :=
    register_running m0 jobName
  have hlk : ((m0.register jobName).1).running.lookup jobName = some (m0.nextID + 1) := by
    rw [hrun1]
    simp [List.lookup]
  refine ⟨?_, ?_, ?_⟩
  · rw [register_running]
    rw [register_id, register_nextID]
    simp only [List.filter_cons]
    simp only [beq_self_eq_true, if_pos]
    unfold eraseName
    rw [register_running]
    simp [List.filter_cons, List.filter_filter]
  · have hm := register_cancelled_mem_of_lookup ((m0.register jobName).1) jobName _ hlk
    rw [register_id]
    exact hm
  · intro hmem
    have hcases := register_cancelled_cases ((m0.register jobName).1) jobName _ hmem
    rw [register_id, register_nextID] at hcases
    rcases hcases with hc | hc
    · have := hW1.2.2 _ hc
      rw [register_nextID] at this
      omega
    · rw [hlk] at hc
      have : m0.nextID + 1 = (m0.register jobName).1.nextID + 1 := by
        simpa using hc.symm
      rw [register_nextID] at this
      omega

/-- Closed witness for C2 at the initial manager state and the name of the
spec's concrete scenario. -/
theorem spec_C2_witness :
    Manager.WF newManager ∧
    (((newManager.register "build").1.register "build").1.running.filter
        (fun p => p.1 == "build") =
      [("build", ((newManager.register "build").1.register "build").2)]) ∧
    (newManager.register "build").2 ∈
      ((newManager.register "build").1.register "build").1.cancelled ∧
    ((newManager.register "build").1.register "build").2 ∉
      ((newManager.register "build").1.register "build").1.cancelled :=
  ⟨by decide, spec_C2 newManager (by decide) "build"⟩

/-- C3.  A deregister closure captured by an older `register` call is a no-op
once a newer instance holds the name: the running-map entry is removed only by
the closure whose captured id equals the id currently stored under the name
(src/jobs.go lines 400-407). -/
theorem spec_C3 (m0 : Manager) (_hWF : m0.WF) (jobName : String) :
    ((((m0.register jobName).1.register jobName).1.deregister jobName
        (m0.register jobName).2) =
      ((m0.register jobName).1.register jobName).1 ∧
     (((m0.register jobName).1.register jobName).1.deregister jobName
        (m0.register jobName).2).running.lookup jobName =
      some ((m0.register jobName).1.register jobName).2) ∧
    ∀ (m : Manager) (nm : String) (id : Nat),
      m.running.lookup nm ≠ some id → m.deregister nm id = m := by
  have hnoop : ∀ (m : Manager) (nm : String) (id : Nat),
      m.running.lookup nm ≠ some id → m.deregister nm id = m := by
    intro m nm id hne
    unfold Manager.deregister
    cases hl : m.running.lookup nm with
    | none => rfl
    | some cur =>
      rw [hl] at hne
      have : cur ≠ id := fun hc => hne (by rw [hc])
      simp [this]
  have hlk2 : (((m0.register jobName).1.register jobName).1).running.lookup jobName =
      some ((m0.register jobName).1.register jobName).2 := by
    rw [register_running, register_id]
    simp [List.lookup]
  have hne : (((m0.register jobName).1.register jobName).1).running.lookup jobName ≠
      some (m0.register jobName).2 := by
    rw [hlk2]
    rw [register_id, register_id, register_nextID]
    intro hc
    have := Option.some.inj hc
    omega
  refine ⟨⟨hnoop _ _ _ hne, ?_⟩, hnoop⟩
  rw [hnoop _ _ _ hne]
  exact hlk2

/-- Closed witness for C3: the stale deregister of the scenario leaves the
newer instance in place. -/
theorem spec_C3_witness :
    Manager.WF newManager ∧
    (((newManager.register "build").1.register "build").1.deregister "build"
        (newManager.register "build").2) =
      ((newManager.register "build").1.register "build").1 :=
  ⟨by decide, ((spec_C3 newManager (by decide) "build").1).1⟩

lemma registerIdsU64_eq (names : List String) : ∀ (n0 : Nat),
    registerIdsU64 n0 names =
      (List.range names.length).map (fun i => (n0 + i + 1) % 2 ^ 64) := by
  induction names with
  | nil => intro n0; rfl
  | cons n ns ih =>
    intro n0
    rw [registerIdsU64, ih (nextIdU64 n0)]
    rw [List.length_cons, List.range_succ_eq_map, List.map_cons, List.map_map]
    rw [List.cons_eq_cons]
    refine ⟨by simp [nextIdU64], ?_⟩
    apply List.map_congr_left
    intro i _
    simp only [Function.comp_apply, nextIdU64]
    rw [Nat.add_assoc, Nat.mod_add_mod]
    congr 1
    omega

/-- C10 counterexample.  With the counter at machine precision the id assigned
by a `Manager.register` call is NOT always strictly greater than every earlier
id: starting from a fresh manager (counter 0), after exactly 2^64 calls the
uint64 counter has wrapped and the last id assigned is 0, smaller than the
very first id 1, so the id sequence of that concrete call sequence is not
strictly increasing. -/
theorem spec_C10_counterexample :
    ¬ (registerIdsU64 0 (List.replicate (2 ^ 64) "build")).Pairwise (· < ·) := by
  intro hpw
  rw [registerIdsU64_eq, List.length_replicate] at hpw
  rw [List.pairwise_iff_get] at hpw
  have hW : (1 : Nat) < 2 ^ 64 := Nat.one_lt_two_pow_iff.mpr (by omega)
  have hlen : ((List.range (2 ^ 64)).map
      (fun i => (0 + i + 1) % 2 ^ 64)).length = 2 ^ 64 := by
    rw [List.length_map, List.length_range]
  have hi : 0 < ((List.range (2 ^ 64)).map
      (fun i => (0 + i + 1) % 2 ^ 64)).length := by omega
  have hj : 2 ^ 64 - 1 < ((List.range (2 ^ 64)).map
      (fun i => (0 + i + 1) % 2 ^ 64)).length := by omega
  have hfin : (⟨0, hi⟩ : Fin _) < ⟨2 ^ 64 - 1, hj⟩ := by
    rw [Fin.mk_lt_mk]
    omega
  have hlt := hpw ⟨0, hi⟩ ⟨2 ^ 64 - 1, hj⟩ hfin
  rw [List.get_eq_getElem, List.get_eq_getElem] at hlt
  simp only [List.getElem_map, List.getElem_range] at hlt
  have e1 : (0 + 0 + 1) % 2 ^ 64 = 1 := Nat.mod_eq_of_lt hW
  have e2 : (0 + (2 ^ 64 - 1) + 1) % 2 ^ 64 = 0 := by
    have : 0 + (2 ^ 64 - 1) + 1 = 2 ^ 64 := by omega
    rw [this, Nat.mod_self]
  rw [e1, e2] at hlt
  omega

/-- C10 (amended).  The instance ids assigned by a sequence of
`Manager.register` calls are those of the single shared uint64 counter,
regardless of job names: the k-th call gets `(n0 + k) % 2^64`.  As long as
the counter does not wrap — fewer than 2^64 ids handed out in total — the ids
are strictly increasing in call order and no two RunInstances ever share an
id (`m.nextID++` under the lock, src/jobs.go lines 386-397). -/
theorem spec_C10_amended (n0 : Nat) (names : List String) :
    (registerIdsU64 n0 names =
      (List.range names.length).map (fun i => (n0 + i + 1) % 2 ^ 64)) ∧
    (n0 + names.length < 2 ^ 64 →
      (registerIdsU64 n0 names).Pairwise (· < ·) ∧
      (registerIdsU64 n0 names).Nodup) := by
  refine ⟨registerIdsU64_eq names n0, ?_⟩
  intro hsmall
  have hpw : (registerIdsU64 n0 names).Pairwise (· < ·) := by
    rw [registerIdsU64_eq]
    rw [List.pairwise_map]
    have hbase : (List.range names.length).Pairwise (· < ·) :=
      List.pairwise_lt_range names.length
    refine hbase.imp_of_mem ?_
    intro a b ha hb hab
    rw [List.mem_range] at ha hb
    have ea : (n0 + a + 1) % 2 ^ 64 = n0 + a + 1 := Nat.mod_eq_of_lt (by omega)
    have eb : (n0 + b + 1) % 2 ^ 64 = n0 + b + 1 := Nat.mod_eq_of_lt (by omega)
    rw [ea, eb]
    omega
  exact ⟨hpw, List.Pairwise.imp (fun h => Nat.ne_of_lt h) hpw⟩

/-- Closed witness for C10 (amended): two calls from a fresh counter yield the
strictly increasing, duplicate-free ids 1 and 2. -/
theorem spec_C10_amended_witness :
    (registerIdsU64 0 ["build", "test"]).Pairwise (· < ·) ∧
    (registerIdsU64 0 ["build", "test"]).Nodup :=
  (spec_C10_amended 0 ["build", "test"]).2 (by norm_num)

/-- C7.  `Job.UnmarshalYAML` rejects a mapping in which more than one of
cmd/series/parallel is populated and accepts one with at most one populated
(src/jobs.go lines 235-248); a scalar command string always parses.  Rejection
happens inside unmarshalling, i.e. at parse/load time, before any job reaches
the execution engine. -/
theorem spec_C7 :
    (∀ raw : RawJob,
      exceptOk (Job.unmarshalYAML (.mapping raw)) = decide (raw.types ≤ 1)) ∧
    (∀ s : String, exceptOk (Job.unmarshalYAML (.scalar s)) = true) := by
  constructor
  · intro raw
    unfold Job.unmarshalYAML
    by_cases h : raw.types > 1
    · have hle : ¬ (raw.types ≤ 1) := by omega
      simp [h, hle, exceptOk]
    · have hle : raw.types ≤ 1 := by omega
      simp [h, hle, exceptOk]
  · intro s
    unfold Job.unmarshalYAML
    cases h : stringFields s <;> simp [h, exceptOk]

/-- C8.  In the post-`Wait` reporting of `Job.execute` (src/jobs.go lines
195-202), an error is reported to the logging boundary exactly when the exit
error is non-nil and the context is not cancelled; a non-nil exit error under
a cancelled context is suppressed. -/
theorem spec_C8 (par : Bool) (waitErr : Option String) (cSetup cStart cWait : Bool) :
    (∃ msg, LogEv.errorReport msg ∈
        executeEvents par none none waitErr cSetup cStart cWait) ↔
      (waitErr ≠ none ∧ cWait = false) := by
  cases waitErr <;> cases cWait <;> cases par <;>
    simp [executeEvents]

lemma filter_key_eq_nil {l : List (String × String)} {k : String}
    (h : k ∉ l.map Prod.fst) : l.filter (fun p => p.1 == k) = [] := by
  induction l with
  | nil => rfl
  | cons a l ih =>
    simp only [List.map_cons, List.mem_cons] at h
    push_neg at h
    rw [List.filter_cons]
    have : (a.1 == k) = false := by
      simpa using fun hc => h.1 hc.symm
    rw [this]
    simp only [Bool.false_eq_true, if_neg, not_false_iff]
    exact ih h.2

lemma filter_key_singleton {l : List (String × String)} {k : String} {v : String}
    (hnd : (l.map Prod.fst).Nodup) (hmem : (k, v) ∈ l) :
    l.filter (fun p => p.1 == k) = [(k, v)] := by
  induction l with
  | nil => simp at hmem
  | cons a l ih =>
    simp only [List.map_cons, List.nodup_cons] at hnd
    rw [List.filter_cons]
    rcases List.mem_cons.mp hmem with hmem | hmem
    · rw [← hmem]
      simp only [beq_self_eq_true, if_pos]
      rw [← hmem] at hnd
      have : l.filter (fun p => p.1 == k) = [] := filter_key_eq_nil hnd.1
      rw [this]
    · have hk : k ∈ l.map Prod.fst := List.mem_map.mpr ⟨(k, v), hmem, rfl⟩
      have hne : a.1 ≠ k := fun hc => hnd.1 (by rw [hc]; exact hk)
      have : (a.1 == k) = false := beq_eq_false_iff_ne.mpr hne
      rw [this]
      simp only [Bool.false_eq_true, if_neg, not_false_iff]
      exact ih hnd.2 hmem

/-- C9.  The environment `Job.setupCmd` hands the spawned process
(src/jobs.go lines 268-272) is the inherited environment with the job's env
merged over it: a key absent from the job env keeps its inherited binding, and
a key present in the job env is seen with the job's value (Go's `os/exec`
keeps the last entry for a duplicated key). -/
theorem spec_C9 (inherited jobEnv : List (String × String)) (k : String) :
    (jobEnv.filter (fun p => p.1 == k) = [] →
      effectiveEnv (setupCmdEnv inherited jobEnv) k = effectiveEnv inherited k) ∧
    (∀ v, (jobEnv.map Prod.fst).Nodup → (k, v) ∈ jobEnv →
      effectiveEnv (setupCmdEnv inherited jobEnv) k = some v) := by
  constructor
  · intro hnone
    unfold effectiveEnv setupCmdEnv
    rw [List.filter_append, hnone, List.append_nil]
  · intro v hnd hmem
    unfold effectiveEnv setupCmdEnv
    rw [List.filter_append, filter_key_singleton hnd hmem]
    rw [List.getLast?_concat]
    rfl

/-- Closed witness for C9: PATH is inherited untouched, FOO is overridden by
the job env. -/
theorem spec_C9_witness :
    effectiveEnv (setupCmdEnv [("PATH", "/bin"), ("FOO", "old")] [("FOO", "new")]) "PATH" =
      effectiveEnv [("PATH", "/bin"), ("FOO", "old")] "PATH" ∧
    effectiveEnv (setupCmdEnv [("PATH", "/bin"), ("FOO", "old")] [("FOO", "new")]) "FOO" =
      some "new" :=
  ⟨(spec_C9 [("PATH", "/bin"), ("FOO", "old")] [("FOO", "new")] "PATH").1 (by decide),
   (spec_C9 [("PATH", "/bin"), ("FOO", "old")] [("FOO", "new")] "FOO").2 "new"
     (by decide) (by decide)⟩

lemma stopJob_events_none (name : String) (procs : ProcRegistry)
    (hl : procs.lookup name = none) : (stopJob name procs).2 = [StopEv.closed] := by
  unfold stopJob
  rw [hl]

lemma stopJob_events_some (name : String) (procs : ProcRegistry) (cmds : List Handle)
    (hl : procs.lookup name = some cmds) :
    (stopJob name procs).2 =
      StopEv.removed name ::
        (cmds.filterMap (fun h => h.pid.map StopEv.killSent) ++ [StopEv.closed]) := by
  unfold stopJob
  rw [hl]

/-- C1 counterexample.  For a registry holding one started process (pid 5)
under "build", `Job.stop` closes its completion channel without any `reaped`
event: the claim that the channel is closed only after every process has been
confirmed reaped by the OS is false at this input — the loop only sends the
group kill signal and never waits. -/
theorem spec_C1_counterexample :
    StopEv.closed ∈ (stopJob "build" [("build", [⟨some 5⟩])]).2 ∧
    StopEv.reaped 5 ∉ (stopJob "build" [("build", [⟨some 5⟩])]).2 := by
  decide

/-- C1 (amended).  `Job.stop` fires its completion signal last, after every
handle with a started process has been SENT a forced termination of its whole
process group; it does not wait for the OS to report any process as reaped (no
`reaped` event ever occurs in its trace). -/
theorem spec_C1_amended (name : String) (procs : ProcRegistry) :
    ((stopJob name procs).2.getLast? = some StopEv.closed) ∧
    (∀ cmds, procs.lookup name = some cmds →
      ∀ h ∈ cmds, ∀ p, h.pid = some p →
        StopEv.killSent p ∈ (stopJob name procs).2.dropLast) ∧
    (∀ p, StopEv.reaped p ∉ (stopJob name procs).2) := by
  refine ⟨?_, ?_, ?_⟩
  · cases hl : procs.lookup name with
    | none => rw [stopJob_events_none name procs hl]; rfl
    | some cmds =>
      rw [stopJob_events_some name procs cmds hl, ← List.cons_append,
        List.getLast?_concat]
  · intro cmds hc h hmem p hp
    rw [stopJob_events_some name procs cmds hc, ← List.cons_append,
      List.dropLast_concat]
    simp only [List.mem_cons]
    right
    rw [List.mem_filterMap]
    exact ⟨h, hmem, by simp [hp]⟩
  · intro p hp
    cases hl : procs.lookup name with
    | none =>
      rw [stopJob_events_none name procs hl] at hp
      simp at hp
    | some cmds =>
      rw [stopJob_events_some name procs cmds hl] at hp
      simp only [List.mem_cons, List.mem_append, List.mem_filterMap] at hp
      rcases hp with hp | hp
      · exact StopEv.noConfusion hp
      rcases hp with ⟨a, -, ha⟩ | hp
      · rcases Option.map_eq_some'.mp ha with ⟨q, -, hk⟩
        exact StopEv.noConfusion hk
      · simp at hp

/-- Closed witness for C1 (amended): the group-kill signal for pid 5 is sent
before the channel closes. -/
theorem spec_C1_amended_witness :
    StopEv.killSent 5 ∈ ((stopJob "build" [("build", [⟨some 5⟩])]).2).dropLast :=
  (spec_C1_amended "build" [("build", [⟨some 5⟩])]).2.1 [⟨some 5⟩] (by decide)
    ⟨some 5⟩ (by decide) 5 rfl

mutual
theorem run_names (o : ExitOracle) (name : String) :
    ∀ (j : Job) (c : Ctx) (t : Nat), ∀ e ∈ (Job.run o name j c t).2, e.name = name
  | .mk _nm cmd params series parallel _bef _aft _env _tr, c, t => by
    intro e he
    simp only [Job.run] at he
    by_cases h1 : ctxDone c t
    · rw [if_pos h1] at he
      simp at he
    rw [if_neg h1] at he
    by_cases h2 : cmd ≠ ""
    · rw [if_pos h2] at he
      simp only [List.mem_singleton] at he
      rw [he]
    rw [if_neg h2] at he
    by_cases h3 : (!series.isNil) = true
    · rw [if_pos h3] at he
      exact seriesL_names o name series c t e he
    rw [if_neg h3] at he
    by_cases h4 : (!parallel.isNil) = true
    · rw [if_pos h4] at he
      exact parL_names o name parallel c t e he
    · rw [if_neg h4] at he
      simp at he

theorem seriesL_names (o : ExitOracle) (name : String) :
    ∀ (js : JobList) (c : Ctx) (t : Nat), ∀ e ∈ (runSeriesL o name js c t).2, e.name = name
  | .nil, c, t => by
    intro e he
    simp only [runSeriesL] at he
    simp at he
  | .cons j js, c, t => by
    intro e he
    simp only [runSeriesL] at he
    simp only [List.mem_append] at he
    rcases he with he | he
    · exact run_names o name j c t e he
    · exact seriesL_names o name js c _ e he

theorem parL_names (o : ExitOracle) (name : String) :
    ∀ (js : JobList) (c : Ctx) (t : Nat), ∀ e ∈ (runParL o name js c t).2, e.name = name
  | .nil, c, t => by
    intro e he
    simp only [runParL] at he
    simp at he
  | .cons j js, c, t => by
    intro e he
    simp only [runParL] at he
    simp only [List.mem_append] at he
    rcases he with he | he
    · exact run_names o name j c t e he
    · exact parL_names o name js c t e he
end

mutual
theorem run_oracle (o o2 : ExitOracle) (name : String) :
    ∀ (j : Job) (c : Ctx) (t : Nat),
      (Job.run o name j c t).1 = (Job.run o2 name j c t).1 ∧
      (Job.run o name j c t).2.map ExecEv.shape =
        (Job.run o2 name j c t).2.map ExecEv.shape
  | .mk _nm cmd params series parallel _bef _aft _env _tr, c, t => by
    simp only [Job.run]
    by_cases h1 : ctxDone c t
    · rw [if_pos h1, if_pos h1]
      exact ⟨rfl, rfl⟩
    rw [if_neg h1, if_neg h1]
    by_cases h2 : cmd ≠ ""
    · rw [if_pos h2, if_pos h2]
      exact ⟨rfl, by simp [ExecEv.shape]⟩
    rw [if_neg h2, if_neg h2]
    by_cases h3 : (!series.isNil) = true
    · rw [if_pos h3, if_pos h3]
      exact seriesL_oracle o o2 name series c t
    rw [if_neg h3, if_neg h3]
    by_cases h4 : (!parallel.isNil) = true
    · rw [if_pos h4, if_pos h4]
      exact parL_oracle o o2 name parallel c t
    · rw [if_neg h4, if_neg h4]
      exact ⟨rfl, rfl⟩

theorem seriesL_oracle (o o2 : ExitOracle) (name : String) :
    ∀ (js : JobList) (c : Ctx) (t : Nat),
      (runSeriesL o name js c t).1 = (runSeriesL o2 name js c t).1 ∧
      (runSeriesL o name js c t).2.map ExecEv.shape =
        (runSeriesL o2 name js c t).2.map ExecEv.shape
  | .nil, c, t => by
    simp [runSeriesL]
  | .cons j js, c, t => by
    simp only [runSeriesL]
    obtain ⟨ht, hv⟩ := run_oracle o o2 name j c t
    obtain ⟨ht2, hv2⟩ := seriesL_oracle o o2 name js c (Job.run o name j c t).1
    constructor
    · rw [ht2, ht]
    · simp only [List.map_append]
      rw [hv, hv2, ht]

theorem parL_oracle (o o2 : ExitOracle) (name : String) :
    ∀ (js : JobList) (c : Ctx) (t : Nat),
      (runParL o name js c t).1 = (runParL o2 name js c t).1 ∧
      (runParL o name js c t).2.map ExecEv.shape =
        (runParL o2 name js c t).2.map ExecEv.shape
  | .nil, c, t => by
    simp [runParL]
  | .cons j js, c, t => by
    simp only [runParL]
    obtain ⟨ht, hv⟩ := run_oracle o o2 name j c t
    obtain ⟨ht2, hv2⟩ := parL_oracle o o2 name js c t
    refine ⟨by rw [ht, ht2], ?_⟩
    simp only [List.map_append]
    rw [hv, hv2]
end

mutual
theorem run_none_leaves (o : ExitOracle) (name : String) :
    ∀ (j : Job) (t : Nat),
      (Job.run o name j none t).2.map ExecEv.shape = runLeaves name j
  | .mk _nm cmd params series parallel _bef _aft _env _tr, t => by
    have hnd : ctxDone none t = false := rfl
    simp only [Job.run, runLeaves, hnd, Bool.false_eq_true, if_false]
    by_cases h2 : cmd ≠ ""
    · rw [if_pos h2, if_pos h2]
      simp [ExecEv.shape]
    rw [if_neg h2, if_neg h2]
    by_cases h3 : (!series.isNil) = true
    · rw [if_pos h3, if_pos h3]
      exact seriesL_none_leaves o name series t
    rw [if_neg h3, if_neg h3]
    by_cases h4 : (!parallel.isNil) = true
    · rw [if_pos h4, if_pos h4]
      exact parL_none_leaves o name parallel t
    · rw [if_neg h4, if_neg h4]
      rfl

theorem seriesL_none_leaves (o : ExitOracle) (name : String) :
    ∀ (js : JobList) (t : Nat),
      (runSeriesL o name js none t).2.map ExecEv.shape = runLeavesL name js
  | .nil, t => by
    simp [runSeriesL, runLeavesL]
  | .cons j js, t => by
    simp only [runSeriesL, runLeavesL, List.map_append]
    rw [run_none_leaves o name j t,
      seriesL_none_leaves o name js (Job.run o name j none t).1]

theorem parL_none_leaves (o : ExitOracle) (name : String) :
    ∀ (js : JobList) (t : Nat),
      (runParL o name js none t).2.map ExecEv.shape = runLeavesL name js
  | .nil, t => by
    simp [runParL, runLeavesL]
  | .cons j js, t => by
    simp only [runParL, runLeavesL, List.map_append]
    rw [run_none_leaves o name j t, parL_none_leaves o name js t]
end

lemma run_done (o : ExitOracle) (name : String) (j : Job) (c : Ctx) (t : Nat)
    (h : ctxDone c t = true) : Job.run o name j c t = (t, []) := by
  cases j with
  | mk nm cmd params series parallel bef aft env tr => simp [Job.run, h]

lemma start_done (o : ExitOracle) (j : Job) (c : Ctx) (t : Nat)
    (h : ctxDone c t = true) : Job.start o j c t = (t, []) := by
  cases j with
  | mk nm cmd params series parallel bef aft env tr =>
    cases bef with
    | cons b bs => simp [Job.start, startList, h]
    | nil =>
      cases aft with
      | nil => simp [Job.start, startList, run_done, h]
      | cons a as => simp [Job.start, startList, run_done, h]

theorem startList_char (o : ExitOracle) :
    ∀ (l : JobList) (c : Ctx) (t : Nat),
      ∃ k, k ≤ l.toList.length ∧
        (startList o l c t).1 = (startListAll o (l.toList.take k) c t).1 ∧
        (startList o l c t).2.1 = (startListAll o (l.toList.take k) c t).2 ∧
        (startList o l c t).2.2 = decide (k < l.toList.length) ∧
        (k < l.toList.length →
          ctxDone c (startListAll o (l.toList.take k) c t).1 = true)
  | .nil, c, t => by
    refine ⟨0, ?_, ?_, ?_, ?_, ?_⟩ <;>
      simp [startList, startListAll, JobList.toList]
  | .cons j js, c, t => by
    by_cases hd : ctxDone c t
    · refine ⟨0, by simp [JobList.toList], ?_, ?_, ?_, ?_⟩
      · simp [startList, hd, startListAll]
      · simp [startList, hd, startListAll]
      · simp [startList, hd, JobList.toList]
      · intro _
        simpa [startListAll] using hd
    · obtain ⟨k, hk, ht, hv, hb, hcond⟩ := startList_char o js c (Job.start o j c t).1
      refine ⟨k + 1, ?_, ?_, ?_, ?_, ?_⟩
      · simp only [JobList.toList, List.length_cons]
        omega
      · simp only [startList, hd, Bool.false_eq_true, if_false, JobList.toList,
          List.take_succ_cons, startListAll]
        exact ht
      · simp only [startList, hd, Bool.false_eq_true, if_false, JobList.toList,
          List.take_succ_cons, startListAll]
        rw [hv]
      · simp only [startList, hd, Bool.false_eq_true, if_false, JobList.toList,
          List.length_cons]
        rw [hb]
        exact decide_eq_decide.mpr (by omega)
      · intro hlt
        simp only [JobList.toList, List.length_cons] at hlt
        simp only [JobList.toList, List.take_succ_cons, startListAll]
        exact hcond (by omega)

/-- C4 counterexample.  A top-level job named "build" with a `before` child
that is a bare leaf: the child's leaf executes under its own (empty) name, not
under "build", because `Job.start` (src/jobs.go lines 45-68) never copies the
parent name onto `Before`/`After` children.  Its process is therefore not
registered under the top-level job's name. -/
theorem spec_C4_counterexample :
    ¬ (∀ e ∈ (Job.start zeroOracle
          (Job.mk "build" "run" [] .nil .nil
            (.cons (Job.mk "" "echo" [] .nil .nil .nil .nil [] none) .nil)
            .nil [] none)
          none 0).2, e.name = "build") := by
  decide

/-- C4 (amended).  The owning job's name is propagated to every descendant
leaf reached through `series` and `parallel` children: every leaf execution
performed by `Job.run` carries exactly the name threaded into it
(`seriesJob.Name = j.Name` / `jobToRun.Name = j.Name`, src/jobs.go lines
112-144), so each such process is registered under the top-level job's name.
Leaves reached through `before`/`after` children keep their own names. -/
theorem spec_C4_amended (o : ExitOracle) (name : String) (j : Job) (c : Ctx) (t : Nat) :
    ∀ e ∈ (Job.run o name j c t).2, e.name = name :=
  run_names o name j c t

/-- Closed witness for C4 (amended) at a single-leaf job. -/
theorem spec_C4_amended_witness :
    ExecEv.name ⟨"build", "go", [], 0⟩ = "build" :=
  spec_C4_amended zeroOracle "build"
    (Job.mk "x" "go" [] .nil .nil .nil .nil [] none) none 0
    ⟨"build", "go", [], 0⟩ (by decide)

/-- C5.  Exit statuses never influence control flow in `Job.run`: the times
and the executed leaves (name, command, parameters, in order) are identical
under any two exit-status oracles — so a non-zero exit of an earlier series
child never prevents a later child from running — and under a never-cancelled
context the executed leaves are exactly `runLeaves`, i.e. every child of every
`series` node runs, in list order; only a cancelled context can halt the
chain (src/jobs.go lines 112-119, 195-202: `err` from `cmd.Wait()` is only
logged). -/
theorem spec_C5 (o o2 : ExitOracle) (name : String) (j : Job) (c : Ctx) (t : Nat) :
    ((Job.run o name j c t).1 = (Job.run o2 name j c t).1 ∧
     (Job.run o name j c t).2.map ExecEv.shape =
       (Job.run o2 name j c t).2.map ExecEv.shape) ∧
    (Job.run o name j none t).2.map ExecEv.shape = runLeaves name j :=
  ⟨run_oracle o o2 name j c t, run_none_leaves o name j t⟩

/-- C6.  (i) A node executed under an already-done context returns at once
with no leaf started, both through `Job.start` and through `Job.run`;
(ii) each `before`/`after` loop of `Job.start` runs exactly a prefix of its
list: there is a `k` such that the loop's time, events and early-return flag
are those of running just the first `k` children, the flag is set exactly when
`k` is a proper prefix, and in that case the context was done at the check
that stopped the loop — children already started are not undone, the
remaining ones never start (src/jobs.go lines 45-68, 104-110). -/
theorem spec_C6 :
    (∀ (o : ExitOracle) (j : Job) (c : Ctx) (t : Nat),
      ctxDone c t = true → Job.start o j c t = (t, [])) ∧
    (∀ (o : ExitOracle) (name : String) (j : Job) (c : Ctx) (t : Nat),
      ctxDone c t = true → Job.run o name j c t = (t, [])) ∧
    (∀ (o : ExitOracle) (l : JobList) (c : Ctx) (t : Nat),
      ∃ k, k ≤ l.toList.length ∧
        (startList o l c t).1 = (startListAll o (l.toList.take k) c t).1 ∧
        (startList o l c t).2.1 = (startListAll o (l.toList.take k) c t).2 ∧
        (startList o l c t).2.2 = decide (k < l.toList.length) ∧
        (k < l.toList.length →
          ctxDone c (startListAll o (l.toList.take k) c t).1 = true)) :=
  ⟨fun o j c t h => start_done o j c t h,
   fun o name j c t h => run_done o name j c t h,
   fun o l c t => startList_char o l c t⟩

/-- Closed witness for C6: a leaf job under a context already done at time 0
starts nothing, through `start` and through `run`. -/
theorem spec_C6_witness :
    Job.start zeroOracle (Job.mk "w" "echo" [] .nil .nil .nil .nil [] none)
        (some 0) 0 = (0, []) ∧
    Job.run zeroOracle "w" (Job.mk "w" "echo" [] .nil .nil .nil .nil [] none)
        (some 0) 0 = (0, []) :=
  ⟨spec_C6.1 zeroOracle (Job.mk "w" "echo" [] .nil .nil .nil .nil [] none)
      (some 0) 0 (by decide),
   spec_C6.2.1 zeroOracle "w" (Job.mk "w" "echo" [] .nil .nil .nil .nil [] none)
      (some 0) 0 (by decide)⟩
